import Mathlib

/-!
Verification of the Multi-LLM-Debate core against its specification.

The Python modules `multi_llm_debate/llm/parsers.py`,
`multi_llm_debate/debate/debate.py`, `multi_llm_debate/debate/agents_ensemble.py`,
`multi_llm_debate/interventions/diversity_pruning.py` and
`multi_llm_debate/interventions/quality_pruning.py` are shallowly embedded below:
strings are lists of characters, Python exceptions are an explicit error type
carried by `Except`, and floating-point distance values are modelled by an
arbitrary linear ordered ring (instantiated with the integers in the
executable witnesses).
-/

namespace MLDebate

/-- Python exceptions that the embedded code can raise.  `valueError` models
`ValueError`, `attributeError` models `AttributeError` (e.g. calling `.lower()`
on a `dict`). -/
inductive PyErr : Type where
  | valueError (msg : List Char)
  | attributeError (msg : List Char)
  deriving DecidableEq, Repr

/-- A JSON-ish scalar value stored in a structured (dict) payload. -/
inductive PyVal : Type where
  | pbool (b : Bool)
  | pstr (s : List Char)
  deriving DecidableEq, Repr

/-- A response payload as produced by `Agent.respond`: either a plain string or
a structured mapping (Python `dict`), cf. `debate/agent.py` lines 71-79. -/
inductive Payload : Type where
  | str (s : List Char)
  | dict (fields : List (List Char × PyVal))
  deriving DecidableEq, Repr

instance {ε α : Type} [DecidableEq ε] [DecidableEq α] : DecidableEq (Except ε α) := fun x y =>
  match x, y with
  | .ok a, .ok b =>
    if h : a = b then .isTrue (by rw [h]) else .isFalse (by intro hc; injection hc; contradiction)
  | .ok _, .error _ => .isFalse (by intro hc; cases hc)
  | .error _, .ok _ => .isFalse (by intro hc; cases hc)
  | .error e, .error f =>
    if h : e = f then .isTrue (by rw [h]) else .isFalse (by intro hc; injection hc; contradiction)

/-- Python `str.lower()` on the ASCII range, as used for the answer tokens. -/
def pyLower (s : List Char) : List Char :=
  s.map Char.toLower

/-- True when token `t` occurs in `s` starting at index `i`
(Python `s[i:i+len(t)] == t`). -/
def occursAt (s t : List Char) (i : Nat) : Prop :=
  (s.drop i).take t.length = t

instance (s t : List Char) (i : Nat) : Decidable (occursAt s t i) := by
  unfold occursAt; infer_instance

/-- All start indices at which token `t` occurs in `s`. -/
def tokenPositions (s t : List Char) : List Nat :=
  (List.range (s.length + 1)).filter (fun i => decide (occursAt s t i))

/-- Maximum of a list of naturals, `none` on the empty list. -/
def listMaxO : List Nat → Option Nat
  | [] => none
  | x :: xs =>
    match listMaxO xs with
    | none => some x
    | some m => some (max x m)

/-- Python `str.rfind`: the largest start index of an occurrence of `t` in `s`,
with `none` standing for the Python value `-1`. -/
def rfindPos (s t : List Char) : Option Nat :=
  listMaxO (tokenPositions s t)

/-- Python `max` of two ints where `none` stands for `-1` (all real indices
are `≥ 0 > -1`). -/
def optMax : Option Nat → Option Nat → Option Nat
  | none, b => b
  | some a, none => some a
  | some a, some b => some (max a b)

/-- Python `>` on ints where `none` stands for `-1`. -/
def optGtB : Option Nat → Option Nat → Bool
  | none, _ => false
  | some _, none => true
  | some a, some b => decide (b < a)

def tokTrue : List Char := "true".toList
def tokYes : List Char := "yes".toList
def tokFalse : List Char := "false".toList
def tokNo : List Char := "no".toList

def answerNotRecognizedMsg : List Char := "Answer not recognized".toList

/-- Function `extract_bool_answer` from `llm/parsers.py` lines 7-27, extended to the
polymorphic payloads that `debate.check_convergence` actually feeds it: on a
`dict` payload the very first statement `response = response.lower()` raises
`AttributeError` because Python dicts have no `lower` method. -/
def extract_bool_answer (response : Payload) : Except PyErr (List Char) :=
  match response with
  | .dict _ => .error (.attributeError "dict object has no attribute lower".toList)
  | .str s0 =>
    let s := pyLower s0
    let lastTrue := optMax (rfindPos s tokTrue) (rfindPos s tokYes)
    let lastFalse := optMax (rfindPos s tokFalse) (rfindPos s tokNo)
    if lastTrue = none ∧ lastFalse = none then
      .error (.valueError answerNotRecognizedMsg)
    else if optGtB lastTrue lastFalse then .ok "true".toList else .ok "false".toList

/-- Left-to-right effectful map, mirroring a Python list comprehension that can
raise: stops at the first exception. -/
def mapME (f : α → Except PyErr β) : List α → Except PyErr (List β)
  | [] => .ok []
  | x :: xs =>
    match f x with
    | .error e => .error e
    | .ok y =>
      match mapME f xs with
      | .error e => .error e
      | .ok ys => .ok (y :: ys)

/-- Function `check_convergence` from `debate/debate.py` lines 87-101:
extract an answer from every response and test `len(set(answers)) == 1`
(the number of distinct answers, i.e. the length of `dedup`). -/
def check_convergence (responses : List Payload) : Except PyErr Bool :=
  match mapME extract_bool_answer responses with
  | .error e => .error e
  | .ok answers => .ok (decide (answers.dedup.length = 1))

/-- Bool-valued test that an `Except` computation succeeded. -/
def exceptOkB : Except PyErr α → Bool
  | .ok _ => true
  | .error _ => false

/-- The `for i in range(max_rounds)` loop of `debate` (`debate/debate.py`
lines 44-81), abstracted over round dispatch: `resp i` is the list of
`response` payloads produced by dispatching round `i` (rounds are dispatched
by `run_debate_round_zero` / `run_debate_round_n`, whose I/O is external).
`fuel` is the number of remaining loop iterations, `i` the current round
index, `acc` the accumulated `all_responses`.  At `i ≥ 1` the loop first
checks convergence of `all_responses[-1]`; `break` returns the rounds
accumulated so far, an extraction exception propagates. -/
def debateGo (resp : Nat → List Payload) :
    Nat → Nat → List (List Payload) → Except PyErr (List (List Payload))
  | 0, _, acc => .ok acc
  | fuel + 1, i, acc =>
    if i = 0 then
      debateGo resp fuel (i + 1) (acc ++ [resp 0])
    else
      match check_convergence (acc.getLastD []) with
      | .error e => .error e
      | .ok true => .ok acc
      | .ok false => debateGo resp fuel (i + 1) (acc ++ [resp i])

/-- Function `debate` from `debate/debate.py` lines 14-84 (round-count behaviour):
runs up to `max_rounds` rounds and returns the accumulated per-round
response payloads. -/
def debate (max_rounds : Nat) (resp : Nat → List Payload) :
    Except PyErr (List (List Payload)) :=
  debateGo resp max_rounds 0 []

/-- The responses of a round converge when `check_convergence` returns `True`. -/
def convergedB (rs : List Payload) : Bool :=
  decide (check_convergence rs = .ok true)

/-- The first round index below `max_rounds` whose responses converge. -/
def firstConvergedRound (max_rounds : Nat) (resp : Nat → List Payload) : Option Nat :=
  (List.range max_rounds).find? (fun j => convergedB (resp j))

/-- The round count the specification predicts: `j + 1` where `j` is the first
converged round below `max_rounds`, and `max_rounds` when no round converges. -/
def expectedRounds (max_rounds : Nat) (resp : Nat → List Payload) : Nat :=
  ((firstConvergedRound max_rounds resp).map (fun j => j + 1)).getD max_rounds

/-- An agent record (`debate/agent.py`): the constructor lower-cases the
provider tag. -/
structure PyAgent : Type where
  agent_id : Nat
  model : List Char
  provider : List Char
  deriving DecidableEq, Repr

/-- A `{provider, name, quantity}` model-configuration group
(`utils/model_config.py`). -/
structure ModelConfig : Type where
  provider : List Char
  name : List Char
  quantity : Nat
  deriving DecidableEq, Repr

def emptyAgentsMsg : List Char :=
  "Cannot initialize ensemble with empty agents list".toList

def emptyConfigMsg : List Char := "Config list cannot be empty".toList

/-- Method `AgentsEnsemble._initialize_from_config_list`: expand each group into
`quantity` agents with sequentially assigned ids, starting from `id0`. -/
def expandConfigs : List ModelConfig → Nat → List PyAgent
  | [], _ => []
  | c :: rest, id0 =>
    (List.range c.quantity).map (fun t => ⟨id0 + t, c.name, pyLower c.provider⟩)
      ++ expandConfigs rest (id0 + c.quantity)

/-- Method `AgentsEnsemble._initialize_from_config`: expand the
`(provider, model_name, quantity)` triples returned by the external
`get_models()`. -/
def expandModels : List (List Char × List Char × Nat) → Nat → List PyAgent
  | [], _ => []
  | (provider, model_name, q) :: rest, id0 =>
    (List.range q).map (fun t => ⟨id0 + t, model_name, pyLower provider⟩)
      ++ expandModels rest (id0 + q)

/-- Constructor `AgentsEnsemble.__init__` from `debate/agents_ensemble.py` lines 27-66,
restricted to the `agents` list it builds (the concurrency fields do not
affect membership).  `models` stands for the external `get_models()` data used
on the `auto_init` path. -/
def initEnsemble (agents : Option (List PyAgent)) (auto_init : Bool)
    (config_list : Option (List ModelConfig))
    (models : List (List Char × List Char × Nat)) : Except PyErr (List PyAgent) :=
  match agents with
  | some ags =>
    if ags.isEmpty then .error (.valueError emptyAgentsMsg) else .ok ags
  | none =>
    match config_list with
    | some cl =>
      if cl.isEmpty then .error (.valueError emptyConfigMsg)
      else .ok (expandConfigs cl 0)
    | none => if auto_init then .ok (expandModels models 0) else .ok []

/-- Method `AgentsEnsemble._get_response_concurrent` (`debate/agents_ensemble.py`
lines 135-168), abstracted over the thread pool: `outcomes` lists each
future's result in `as_completed` (completion) order, `.error` standing for a
future whose `result()` re-raises the exception of its agent.  The loop appends
successful results and the first `future.result()` that raises propagates
that single exception unchanged. -/
def get_response_concurrent {ε ρ : Type} :
    List (Except ε ρ) → Except ε (List ρ)
  | [] => .ok []
  | o :: rest =>
    match o with
    | .error e => .error e
    | .ok r =>
      match get_response_concurrent rest with
      | .error e => .error e
      | .ok rs => .ok (r :: rs)

/-- The sequential branch of `AgentsEnsemble.get_responses` (lines 187-193):
call each agent in ensemble order, collecting in dispatch order; an agent
exception propagates immediately. -/
def get_responses_sequential {ε ρ : Type} (agents : List PyAgent)
    (respond : PyAgent → Except ε ρ) : Except ε (List ρ) :=
  match agents with
  | [] => .ok []
  | a :: rest =>
    match respond a with
    | .error e => .error e
    | .ok r =>
      match get_responses_sequential rest respond with
      | .error e => .error e
      | .ok rs => .ok (r :: rs)

/-- Modelled from the spec: "the ensemble aggregates all such failures and
re-raises a single `ConnectionFailure` summarizing them once all outstanding
calls finish".  The summary of a dispatch is the list of every failure in
completion order. -/
def specAggregatedFailures {ε ρ : Type} (outcomes : List (Except ε ρ)) : List ε :=
  outcomes.foldr (fun o acc => match o with | .error e => e :: acc | .ok _ => acc) []

/-- Python list indexing with negative-index wraparound (`l[-1]` is the last
element).  Out-of-range indices are unreachable in the verified regimes. -/
def pyGet {β : Type} [Inhabited β] (l : List β) (i : Int) : β :=
  if 0 ≤ i then l.getD i.toNat default else l.getD (l.length - (-i).toNat) default

/-- The sum `sum(kullback_leibler_approximation_distance(embeddings[i], embeddings[j])
for j in selected_indices)` — the aggregate dissimilarity of candidate `i` to
the already-selected indices. -/
def sumKL {E Q : Type} [Inhabited E] [LinearOrderedRing Q] (dist : E → E → Q)
    (emb : List E) (sel : List Int) (i : Nat) : Q :=
  (sel.map (fun j => dist (pyGet emb (Int.ofNat i)) (pyGet emb j))).sum

/-- One iteration of the candidate scan shared by both pruning loops:
skip an already-selected index, otherwise keep the first index whose score
strictly exceeds the best so far (`max_total_kl` starts at `-inf`, modelled
`none`; `next_index` starts at `-1`). -/
def scanBody {Q : Type} [LinearOrderedRing Q] (score : Nat → Q) (sel : List Int)
    (acc : Option Q × Int) (i : Nat) : Option Q × Int :=
  if (Int.ofNat i) ∈ sel then acc
  else
    match acc.1 with
    | none => (some (score i), Int.ofNat i)
    | some b => if b < score i then (some (score i), Int.ofNat i) else acc

/-- The candidate scan shared by both pruning loops: iterate `i` over
`range n`, applying `scanBody`, and return the resulting `next_index`. -/
def selectStep {Q : Type} [LinearOrderedRing Q] (score : Nat → Q) (sel : List Int) (n : Nat) : Int :=
  ((List.range n).foldl (scanBody score sel) ((none : Option Q), (-1 : Int))).2

/-- The `while len(selected_indices) < selected_amount` loop shared by both
pruning functions; each iteration appends the scanned index (`fuel` bounds the
iteration count — `selected_amount` iterations always suffice because every
iteration appends exactly one index). -/
def greedyLoop {Q : Type} [LinearOrderedRing Q] (score : List Int → Nat → Q)
    (k n : Nat) : Nat → List Int → List Int
  | 0, sel => sel
  | fuel + 1, sel =>
    if sel.length < k then
      greedyLoop score k n fuel (sel ++ [selectStep (score sel) sel n])
    else sel

/-- Function `diversity_pruning` from `interventions/diversity_pruning.py` lines 8-63,
abstracted over the sentence-transformer encoder (`embed`, assumed provided)
and the `kullback_leibler_approximation_distance` on embeddings (`dist`,
an ordered ring standing for the floats). -/
def diversity_pruning {α E Q : Type} [Inhabited α] [Inhabited E]
    [LinearOrderedRing Q] (dist : E → E → Q) (embed : α → E) (responses : List α)
    (selected_amount : Nat) : List α :=
  if responses.length ≤ selected_amount then responses
  else
    let embeddings := responses.map embed
    let sel := greedyLoop (fun s i => sumKL dist embeddings s i)
      selected_amount embeddings.length selected_amount [Int.ofNat 0]
    sel.map (fun i => pyGet responses i)

/-- Python `max(l, key=...)` over index lists: keeps the earliest element
attaining the maximal key (later elements replace only on strictly greater
key).  Python raises on an empty iterable; that case is unreachable where
this is used. -/
def pyMaxBy {Q : Type} [LinearOrderedRing Q] (key : Nat → Q) : List Nat → Nat
  | [] => 0
  | x :: xs => xs.foldl (fun b i => if key b < key i then i else b) x

/-- Function `quality_pruning` from `interventions/quality_pruning.py` lines 8-76:
seeds with the index maximizing `1 - dist(task_embedding, emb[i])` and then
greedily maximizes `total_kl + (1 - dist(task_embedding, emb[i]))`. -/
def quality_pruning {α E Q : Type} [Inhabited α] [Inhabited E]
    [LinearOrderedRing Q] (dist : E → E → Q) (embed : α → E) (responses : List α) (task : α)
    (selected_amount : Nat) : List α :=
  if responses.length ≤ selected_amount then responses
  else
    let task_embedding := embed task
    let response_embeddings := responses.map embed
    let seed := pyMaxBy
      (fun i => 1 - dist task_embedding (pyGet response_embeddings (Int.ofNat i)))
      (List.range responses.length)
    let sel := greedyLoop
      (fun s i => sumKL dist response_embeddings s i +
        (1 - dist task_embedding (pyGet response_embeddings (Int.ofNat i))))
      selected_amount responses.length selected_amount [Int.ofNat seed]
    sel.map (fun i => pyGet responses i)

/-- All start positions of an affirmative token (`"true"` or `"yes"`). -/
def affirmativePositions (s : List Char) : List Nat :=
  tokenPositions s tokTrue ++ tokenPositions s tokYes

/-- All start positions of a negative token (`"false"` or `"no"`). -/
def negativePositions (s : List Char) : List Nat :=
  tokenPositions s tokFalse ++ tokenPositions s tokNo

/-- The tail of the debate loop, counting rounds: starting at loop index `i`
(so rounds `0..i-1` are already dispatched), with `fuel` iterations left,
returns how many rounds the accumulator holds when the loop stops, assuming
every convergence check succeeds. -/
def tailRounds (resp : Nat → List Payload) : Nat → Nat → Nat
  | 0, i => i
  | fuel + 1, i => if convergedB (resp (i - 1)) then i else tailRounds resp fuel (i + 1)

/-- The aggregate dissimilarity of candidate `i` to the already-selected
indices `σprev`, written over natural-number index lists (what the sum in
`diversity_pruning` computes at each greedy step). -/
def divAggregate {E Q : Type} [Inhabited E] [LinearOrderedRing Q]
    (dist : E → E → Q) (emb : List E) (σprev : List Nat) (i : Nat) : Q :=
  (σprev.map (fun j => dist (emb.getD i default) (emb.getD j default))).sum

/-- A sample integer-valued squared-difference dissimilarity, playing the
role of the embedding distance in the executable witnesses. -/
def sampleDist : ℤ → ℤ → ℤ := fun u v => (u - v) * (u - v)

/-- A sample deterministic encoder used by the executable witnesses. -/
def sampleEmbed : String → ℤ := fun s => if s = "b" then 1 else if s = "c" then 2 else 0

/-! Ensemble construction and dispatch (C5, C9, C10) -/

/-- C9: constructing an `AgentsEnsemble` from an explicitly provided agents
list that is empty always fails with the configuration `ValueError`
("Cannot initialize ensemble with empty agents list"), regardless of the
other constructor arguments; and whenever construction from an explicit list
succeeds, the resulting ensemble is non-empty. -/
theorem explicit_list_construction :
    (∀ (auto_init : Bool) (config_list : Option (List ModelConfig))
      (models : List (List Char × List Char × Nat)),
      initEnsemble (some []) auto_init config_list models =
        .error (.valueError emptyAgentsMsg)) ∧
    (∀ (ags : List PyAgent) (auto_init : Bool)
      (config_list : Option (List ModelConfig))
      (models : List (List Char × List Char × Nat)) (E : List PyAgent),
      initEnsemble (some ags) auto_init config_list models = .ok E → E ≠ []) := by
  constructor
  · intro auto_init config_list models
    rfl
  · intro ags auto_init config_list models E h hE
    cases ags with
    | nil => simp [initEnsemble] at h
    | cons a rest =>
      simp [initEnsemble] at h
      subst hE
      exact absurd h.symm (by simp)

/-- Witness for C9: with one agent, construction succeeds and the ensemble is
non-empty; with the empty list it raises. -/
theorem explicit_list_construction_witness :
    initEnsemble (some []) true none [] = .error (.valueError emptyAgentsMsg) ∧
    ([⟨0, "m".toList, "ollama".toList⟩] : List PyAgent) ≠ [] :=
  ⟨explicit_list_construction.1 true none [],
    explicit_list_construction.2 [⟨0, "m".toList, "ollama".toList⟩] true none []
      [⟨0, "m".toList, "ollama".toList⟩] (by rfl)⟩

/-- C10: the public constructor permits a durably empty ensemble — with no
explicit agents list, no config list and `auto_init` disabled, construction
succeeds with zero agents, and `get_responses` on a zero-agent ensemble
returns the empty response list on both the concurrent branch (no futures
are submitted) and the sequential branch, rather than failing. -/
theorem empty_ensemble_construction :
    (∀ models : List (List Char × List Char × Nat),
      initEnsemble none false none models = .ok []) ∧
    get_response_concurrent ([] : List (Except PyErr (PyAgent × Payload))) = .ok [] ∧
    (∀ respond : PyAgent → Except PyErr (PyAgent × Payload),
      get_responses_sequential [] respond = .ok []) := by
  refine ⟨fun models => rfl, rfl, fun respond => rfl⟩

/-- C5 counterexample: a concurrent dispatch in which agents 0 and 1 both fail
is indistinguishable from one in which only agent 0 fails — both raise exactly
the first completed failure — so the raised exception does not aggregate or
summarize all per-agent failures (the spec-side aggregate of the first run
would have to record both failures). -/
theorem concurrent_dispatch_counterexample :
    get_response_concurrent
        ([.error "agent 0 unreachable".toList, .error "agent 1 unreachable".toList] :
          List (Except (List Char) Nat)) =
      .error "agent 0 unreachable".toList ∧
    get_response_concurrent
        ([.error "agent 0 unreachable".toList, .ok 7] :
          List (Except (List Char) Nat)) =
      .error "agent 0 unreachable".toList ∧
    specAggregatedFailures
        ([.error "agent 0 unreachable".toList, .error "agent 1 unreachable".toList] :
          List (Except (List Char) Nat)) =
      ["agent 0 unreachable".toList, "agent 1 unreachable".toList] ∧
    "agent 0 unreachable".toList ≠ "agent 1 unreachable".toList := by
  refine ⟨rfl, rfl, rfl, by decide⟩

/-- C5 (amended): `_get_response_concurrent` raises precisely the first
failure in completion order — the dispatch errors with `e` exactly when the
completion-ordered outcomes are some successes followed by a failure `e`. -/
theorem concurrent_dispatch_first_failure {ε ρ : Type} :
    ∀ (outcomes : List (Except ε ρ)) (e : ε),
      get_response_concurrent outcomes = .error e ↔
        ∃ (oks : List ρ) (rest : List (Except ε ρ)),
          outcomes = oks.map Except.ok ++ Except.error e :: rest := by
  intro outcomes e
  induction outcomes with
  | nil =>
    simp only [get_response_concurrent]
    constructor
    · intro h; cases h
    · rintro ⟨oks, rest, h⟩
      exact absurd h (by cases oks <;> simp)
  | cons o os ih =>
    cases o with
    | error e' =>
      simp only [get_response_concurrent]
      constructor
      · intro h
        cases h
        exact ⟨[], os, rfl⟩
      · rintro ⟨oks, rest, h⟩
        cases oks with
        | nil => simp at h; rw [h.1]
        | cons x xs => simp at h
    | ok r =>
      simp only [get_response_concurrent]
      constructor
      · intro h
        cases hrec : get_response_concurrent os with
        | error e'' =>
          rw [hrec] at h
          cases h
          obtain ⟨oks, rest, hx⟩ := ih.mp hrec
          exact ⟨r :: oks, rest, by simp [hx]⟩
        | ok rs => rw [hrec] at h; cases h
      · rintro ⟨oks, rest, h⟩
        cases oks with
        | nil => simp at h
        | cons x xs =>
          simp at h
          obtain ⟨hx, hos⟩ := h
          have : get_response_concurrent os = .error e := ih.mpr ⟨xs, rest, hos⟩
          rw [this]

/-- Witness for the amended C5 theorem: one success followed by two failures
raises the first failure. -/
theorem concurrent_dispatch_first_failure_witness :
    get_response_concurrent
        ([.ok 1, .error "x".toList, .error "y".toList] : List (Except (List Char) Nat)) =
      .error "x".toList :=
  (concurrent_dispatch_first_failure
      [.ok 1, .error "x".toList, .error "y".toList] "x".toList).mpr
    ⟨[1], [.error "y".toList], rfl⟩

/-! Convergence checking (C1) -/

theorem mapME_ok_of_forall (f : α → Except PyErr β) :
    ∀ l : List α, (∀ x ∈ l, exceptOkB (f x) = true) →
      ∃ ys, mapME f l = .ok ys := by
  intro l hl
  induction l with
  | nil => exact ⟨[], rfl⟩
  | cons x xs ih =>
    have hx : exceptOkB (f x) = true := hl x (by simp)
    obtain ⟨ys, hys⟩ := ih (fun z hz => hl z (by simp [hz]))
    cases hfx : f x with
    | error e => rw [hfx] at hx; cases hx
    | ok y => exact ⟨y :: ys, by simp [mapME, hfx, hys]⟩

theorem mapME_mem_ok (f : α → Except PyErr β) :
    ∀ (l : List α) (ys : List β), mapME f l = .ok ys →
      ∀ y ∈ ys, ∃ x ∈ l, f x = .ok y := by
  intro l
  induction l with
  | nil => intro ys h y hy; cases h; cases hy
  | cons x xs ih =>
    intro ys h y hy
    simp only [mapME] at h
    cases hfx : f x with
    | error e => rw [hfx] at h; cases h
    | ok y' =>
      rw [hfx] at h
      cases hrec : mapME f xs with
      | error e => rw [hrec] at h; cases h
      | ok ys' =>
        rw [hrec] at h
        cases h
        rcases List.mem_cons.mp hy with hy' | hy'
        · exact ⟨x, by simp, by rw [hfx, hy']⟩
        · obtain ⟨z, hz, hfz⟩ := ih ys' hrec y hy'
          exact ⟨z, by simp [hz], hfz⟩

theorem mapME_ok_mem (f : α → Except PyErr β) :
    ∀ (l : List α) (ys : List β), mapME f l = .ok ys →
      ∀ x ∈ l, ∃ y ∈ ys, f x = .ok y := by
  intro l
  induction l with
  | nil => intro ys h x hx; cases hx
  | cons z zs ih =>
    intro ys h x hx
    simp only [mapME] at h
    cases hfz : f z with
    | error e => rw [hfz] at h; cases h
    | ok y' =>
      rw [hfz] at h
      cases hrec : mapME f zs with
      | error e => rw [hrec] at h; cases h
      | ok ys' =>
        rw [hrec] at h
        cases h
        rcases List.mem_cons.mp hx with hx' | hx'
        · exact ⟨y', by simp, by rw [hx', hfz]⟩
        · obtain ⟨y, hy, hfy⟩ := ih ys' hrec x hx'
          exact ⟨y, by simp [hy], hfy⟩

theorem mapME_ne_nil (f : α → Except PyErr β) (l : List α) (ys : List β)
    (h : mapME f l = .ok ys) (hne : l ≠ []) : ys ≠ [] := by
  cases l with
  | nil => exact absurd rfl hne
  | cons x xs =>
    simp only [mapME] at h
    cases hfx : f x with
    | error e => rw [hfx] at h; cases h
    | ok y =>
      rw [hfx] at h
      cases hrec : mapME f xs with
      | error e => rw [hrec] at h; cases h
      | ok ys' => rw [hrec] at h; cases h; simp

theorem dedup_length_one_iff {β : Type} [DecidableEq β] (l : List β)
    (hne : l ≠ []) : l.dedup.length = 1 ↔ ∃ a, ∀ x ∈ l, x = a := by
  constructor
  · intro h
    obtain ⟨a, ha⟩ := List.length_eq_one.mp h
    exact ⟨a, fun x hx => by
      have : x ∈ l.dedup := List.mem_dedup.mpr hx
      rw [ha] at this
      simpa using this⟩
  · rintro ⟨a, ha⟩
    cases hd : l.dedup with
    | nil => exact absurd ((List.dedup_eq_nil _).mp hd) hne
    | cons x rest =>
      cases rest with
      | nil => simp
      | cons y rest' =>
        have hnd : l.dedup.Nodup := List.nodup_dedup l
        rw [hd] at hnd
        have hx : x ∈ l := List.mem_dedup.mp (by rw [hd]; simp)
        have hy : y ∈ l := List.mem_dedup.mp (by rw [hd]; simp)
        have : x = y := (ha x hx).trans (ha y hy).symm
        simp [this] at hnd

/-- C1: on a non-empty round whose every payload extracts successfully,
`check_convergence` succeeds and returns `True` exactly when all extracted
normalized answers coincide (so two or more distinct answers yield `False`). -/
theorem check_convergence_unanimity (responses : List Payload)
    (hne : responses ≠ [])
    (hok : ∀ r ∈ responses, exceptOkB (extract_bool_answer r) = true) :
    (∃ b, check_convergence responses = .ok b) ∧
    (check_convergence responses = .ok true ↔
      ∃ a, ∀ r ∈ responses, extract_bool_answer r = .ok a) := by
  obtain ⟨ys, hys⟩ := mapME_ok_of_forall extract_bool_answer responses hok
  have hcc : check_convergence responses = .ok (decide (ys.dedup.length = 1)) := by
    simp [check_convergence, hys]
  refine ⟨⟨_, hcc⟩, ?_⟩
  rw [hcc]
  have hysne : ys ≠ [] := mapME_ne_nil _ _ _ hys hne
  constructor
  · intro h
    have h1 : ys.dedup.length = 1 := by
      simpa using h
    obtain ⟨a, ha⟩ := (dedup_length_one_iff ys hysne).mp h1
    refine ⟨a, fun r hr => ?_⟩
    obtain ⟨y, hy, hfy⟩ := mapME_ok_mem extract_bool_answer responses ys hys r hr
    rw [hfy, ha y hy]
  · rintro ⟨a, ha⟩
    have h1 : ys.dedup.length = 1 := by
      refine (dedup_length_one_iff ys hysne).mpr ⟨a, fun y hy => ?_⟩
      obtain ⟨x, hx, hfx⟩ := mapME_mem_ok extract_bool_answer responses ys hys y hy
      have heq := (ha x hx).symm.trans hfx
      injection heq with heq2
      exact heq2.symm
    simp [h1]

/-- Witness for C1: two payloads both extracting to `"true"` converge. -/
theorem check_convergence_unanimity_witness :
    ([Payload.str "True".toList, Payload.str "I think it is true".toList] ≠
      ([] : List Payload)) ∧
    (check_convergence
        [Payload.str "True".toList, Payload.str "I think it is true".toList] =
        .ok true ↔
      ∃ a, ∀ r ∈ [Payload.str "True".toList, Payload.str "I think it is true".toList],
        extract_bool_answer r = .ok a) :=
  ⟨by decide,
    (check_convergence_unanimity
      [Payload.str "True".toList, Payload.str "I think it is true".toList]
      (by decide) (by decide)).2⟩

/-! Answer extraction (C3) -/

theorem listMaxO_eq_none {l : List Nat} : listMaxO l = none ↔ l = [] := by
  cases l with
  | nil => simp [listMaxO]
  | cons x xs =>
    simp only [listMaxO]
    cases listMaxO xs <;> simp

theorem listMaxO_mem {l : List Nat} {m : Nat} (h : listMaxO l = some m) : m ∈ l := by
  induction l generalizing m with
  | nil => cases h
  | cons x xs ih =>
    simp only [listMaxO] at h
    cases hxs : listMaxO xs with
    | none =>
      rw [hxs] at h
      injection h with h
      simp [h.symm]
    | some m' =>
      rw [hxs] at h
      injection h with h
      rcases max_choice x m' with hc | hc <;> rw [hc] at h
      · simp [h.symm]
      · exact List.mem_cons_of_mem x (h ▸ ih hxs)

theorem listMaxO_ge {l : List Nat} {m : Nat} (h : listMaxO l = some m) :
    ∀ x ∈ l, x ≤ m := by
  induction l generalizing m with
  | nil => intro x hx; cases hx
  | cons y ys ih =>
    intro x hx
    simp only [listMaxO] at h
    cases hys : listMaxO ys with
    | none =>
      rw [hys] at h
      injection h with h
      rcases List.mem_cons.mp hx with hx' | hx'
      · omega
      · exact absurd hx' (by simp [listMaxO_eq_none.mp hys])
    | some m' =>
      rw [hys] at h
      injection h with h
      rcases List.mem_cons.mp hx with hx' | hx'
      · subst hx'; omega
      · have := ih hys x hx'
        omega

theorem listMaxO_of_mem {l : List Nat} {x : Nat} (h : x ∈ l) :
    ∃ m, listMaxO l = some m ∧ x ≤ m := by
  cases hl : listMaxO l with
  | none => exact absurd (listMaxO_eq_none.mp hl ▸ h) (List.not_mem_nil x)
  | some m => exact ⟨m, rfl, listMaxO_ge hl x h⟩

theorem listMaxO_append (l1 l2 : List Nat) :
    listMaxO (l1 ++ l2) = optMax (listMaxO l1) (listMaxO l2) := by
  induction l1 with
  | nil => cases hl2 : listMaxO l2 <;> simp [listMaxO, optMax, hl2]
  | cons x xs ih =>
    simp only [List.cons_append, listMaxO, List.append_eq]
    rw [ih]
    cases hxs : listMaxO xs <;> cases hl2 : listMaxO l2 <;>
      simp [optMax, listMaxO, max_assoc]

theorem occursAt_head {s t : List Char} {i : Nat} {c : Char} {t' : List Char}
    (h : occursAt s t i) (ht : t = c :: t') : s.get? i = some c := by
  subst ht
  unfold occursAt at h
  cases hd : s.drop i with
  | nil => rw [hd] at h; simp at h
  | cons a rest =>
    rw [hd] at h
    simp only [List.length_cons, List.take_succ_cons] at h
    have ha : a = c := by injection h
    have : s.get? (i + 0) = (s.drop i).get? 0 := (List.get?_drop s i 0).symm
    rw [Nat.add_zero] at this
    rw [this, hd, ha]
    rfl

theorem mem_tokenPositions {s t : List Char} {i : Nat} :
    i ∈ tokenPositions s t ↔ i < s.length + 1 ∧ occursAt s t i := by
  simp [tokenPositions, List.mem_filter, List.mem_range]

theorem position_classes_disjoint (s : List Char) (m : Nat)
    (ha : m ∈ affirmativePositions s) (hn : m ∈ negativePositions s) : False := by
  have haff : s.get? m = some 't' ∨ s.get? m = some 'y' := by
    rcases List.mem_append.mp ha with h | h
    · exact Or.inl (occursAt_head (mem_tokenPositions.mp h).2 (by decide : tokTrue = 't' :: ['r', 'u', 'e']))
    · exact Or.inr (occursAt_head (mem_tokenPositions.mp h).2 (by decide : tokYes = 'y' :: ['e', 's']))
  have hneg : s.get? m = some 'f' ∨ s.get? m = some 'n' := by
    rcases List.mem_append.mp hn with h | h
    · exact Or.inl (occursAt_head (mem_tokenPositions.mp h).2 (by decide : tokFalse = 'f' :: ['a', 'l', 's', 'e']))
    · exact Or.inr (occursAt_head (mem_tokenPositions.mp h).2 (by decide : tokNo = 'n' :: ['o']))
  rcases haff with h1 | h1 <;> rcases hneg with h2 | h2 <;>
    · rw [h1] at h2
      injection h2 with h3
      exact absurd h3 (by decide)

theorem extract_str_eq (s0 : List Char) :
    extract_bool_answer (.str s0) =
      (if listMaxO (affirmativePositions (pyLower s0)) = none ∧
          listMaxO (negativePositions (pyLower s0)) = none then
        .error (.valueError answerNotRecognizedMsg)
      else if optGtB (listMaxO (affirmativePositions (pyLower s0)))
          (listMaxO (negativePositions (pyLower s0))) then
        .ok "true".toList
      else .ok "false".toList) := by
  simp only [extract_bool_answer, affirmativePositions, negativePositions,
    rfindPos, listMaxO_append]

/-- C3: answer extraction on a string payload is decided by the token
occurrence with the largest start index in the lower-cased text — if the
overall maximal position among all `true`/`yes`/`false`/`no` occurrences is
an affirmative one the result is `"true"`, if it is a negative one the result
is `"false"`, and with no occurrence of either class the extraction fails
with `ValueError("Answer not recognized")`. -/
theorem extract_bool_answer_last_occurrence (s0 : List Char) :
    (affirmativePositions (pyLower s0) = [] → negativePositions (pyLower s0) = [] →
      extract_bool_answer (.str s0) = .error (.valueError answerNotRecognizedMsg)) ∧
    (∀ m, listMaxO (affirmativePositions (pyLower s0) ++
        negativePositions (pyLower s0)) = some m →
      (m ∈ affirmativePositions (pyLower s0) →
        extract_bool_answer (.str s0) = .ok "true".toList) ∧
      (m ∈ negativePositions (pyLower s0) →
        extract_bool_answer (.str s0) = .ok "false".toList)) := by
  set s := pyLower s0 with hs
  constructor
  · intro hA hN
    rw [extract_str_eq]
    rw [if_pos ⟨by rw [hA]; rfl, by rw [hN]; rfl⟩]
  · intro m hm
    have hge := listMaxO_ge hm
    constructor
    · intro hmA
      obtain ⟨a, haA, hma⟩ := listMaxO_of_mem hmA
      have ham : a = m := by
        have := hge a (List.mem_append_left _ (listMaxO_mem haA))
        omega
      subst ham
      have hTrue : listMaxO (affirmativePositions s) = some a := haA
      rw [extract_str_eq]
      rw [if_neg (by rw [hTrue]; rintro ⟨h1, -⟩; cases h1)]
      rw [if_pos ?_]
      rw [hTrue]
      cases hN : listMaxO (negativePositions s) with
      | none => rfl
      | some b =>
        have hbN := listMaxO_mem hN
        have hbm : b ≤ a := hge b (List.mem_append_right _ hbN)
        have hbma : b ≠ a := fun hc =>
          position_classes_disjoint s a hmA (hc ▸ hbN)
        simp only [optGtB, decide_eq_true_eq]
        omega
    · intro hmN
      obtain ⟨b, hbN, hmb⟩ := listMaxO_of_mem hmN
      have hbm : b = m := by
        have := hge b (List.mem_append_right _ (listMaxO_mem hbN))
        omega
      subst hbm
      have hFalse : listMaxO (negativePositions s) = some b := hbN
      rw [extract_str_eq]
      rw [if_neg (by rw [hFalse]; rintro ⟨-, h2⟩; cases h2)]
      rw [if_neg ?_]
      rw [hFalse]
      cases hA : listMaxO (affirmativePositions s) with
      | none => simp [optGtB]
      | some a =>
        have haA := listMaxO_mem hA
        have ham : a ≤ b := hge a (List.mem_append_left _ haA)
        have hanb : a ≠ b := fun hc =>
          position_classes_disjoint s b (hc ▸ haA) hmN
        simp only [optGtB, decide_eq_true_eq]
        omega

/-- Witness for C3: the two worked examples from the specification —
"Initial thought: no. Final answer: yes" extracts to `"true"` (the `yes` at
index 35 is the last token), and "yes, but actually no" extracts to
`"false"` (the `no` at index 18 is the last token). -/
theorem extract_bool_answer_last_occurrence_witness :
    extract_bool_answer (.str "Initial thought: no. Final answer: yes".toList) =
      .ok "true".toList ∧
    extract_bool_answer (.str "yes, but actually no".toList) =
      .ok "false".toList :=
  ⟨((extract_bool_answer_last_occurrence
      "Initial thought: no. Final answer: yes".toList).2 35 (by decide)).1 (by decide),
    ((extract_bool_answer_last_occurrence
      "yes, but actually no".toList).2 18 (by decide)).2 (by decide)⟩

/-! Structured payloads (C4) and the debate round loop (C2) -/

/-- C4: contrary to the specification, extraction as invoked by convergence
checking does not handle a structured mapping payload with an explicit
boolean-valued field: `extract_bool_answer` immediately calls
`response.lower()`, which on a Python dict raises `AttributeError`, so a
round whose payloads are dicts makes `check_convergence` raise instead of
returning a normalized answer. -/
theorem structured_payload_extraction_fails :
    extract_bool_answer (.dict [("answer".toList, .pbool true)]) =
      .error (.attributeError "dict object has no attribute lower".toList) ∧
    check_convergence
        [.dict [("answer".toList, .pbool true)],
          .dict [("answer".toList, .pbool true)]] =
      .error (.attributeError "dict object has no attribute lower".toList) :=
  ⟨rfl, rfl⟩

theorem getLastD_range_map (resp : Nat → List Payload) (i : Nat) (hi : 1 ≤ i) :
    ((List.range i).map resp).getLastD [] = resp (i - 1) := by
  obtain ⟨j, rfl⟩ : ∃ j, i = j + 1 := ⟨i - 1, by omega⟩
  rw [List.range_succ, List.map_append]
  simp

theorem debateGo_spec (resp : Nat → List Payload) :
    ∀ (fuel i : Nat), 1 ≤ i →
      (∀ j, i - 1 ≤ j → j < i - 1 + fuel →
        exceptOkB (check_convergence (resp j)) = true) →
      debateGo resp fuel i ((List.range i).map resp) =
        .ok ((List.range (tailRounds resp fuel i)).map resp) := by
  intro fuel
  induction fuel with
  | zero => intro i hi _; rfl
  | succ fuel ih =>
    intro i hi hok
    have hne : ¬ i = 0 := by omega
    rw [debateGo, if_neg hne, getLastD_range_map resp i hi]
    have hcur : exceptOkB (check_convergence (resp (i - 1))) = true :=
      hok (i - 1) le_rfl (by omega)
    cases hcv : check_convergence (resp (i - 1)) with
    | error e => rw [hcv] at hcur; cases hcur
    | ok b =>
      cases b with
      | true =>
        have hconv : convergedB (resp (i - 1)) = true := by
          simp [convergedB, hcv]
        rw [tailRounds, if_pos hconv]
      | false =>
        have hconv : convergedB (resp (i - 1)) = false := by
          simp [convergedB, hcv]
        have hstep : ((List.range i).map resp) ++ [resp i] =
            (List.range (i + 1)).map resp := by
          rw [List.range_succ, List.map_append]
          rfl
        rw [hstep]
        rw [tailRounds, if_neg (by simp [hconv])]
        exact ih (i + 1) (by omega) (fun j hj1 hj2 => hok j (by omega) (by omega))

theorem tailRounds_eq_find (resp : Nat → List Payload) :
    ∀ (fuel i : Nat), 1 ≤ i →
      tailRounds resp fuel i =
        (((List.range' (i - 1) fuel).find? (fun j => convergedB (resp j))).map
          (fun j => j + 1)).getD (i + fuel) := by
  intro fuel
  induction fuel with
  | zero => intro i hi; rfl
  | succ fuel ih =>
    intro i hi
    rw [List.range'_succ, List.find?_cons]
    cases hconv : convergedB (resp (i - 1)) with
    | true =>
      rw [tailRounds, if_pos hconv]
      simp only [hconv, Option.map_some', Option.getD_some]
      exact (Nat.succ_pred_eq_of_pos hi).symm
    | false =>
      rw [tailRounds, if_neg (by simp [hconv])]
      rw [ih (i + 1) (by omega)]
      simp only [hconv]
      have harg : i + 1 - 1 = i - 1 + 1 := by omega
      rw [harg]
      cases hf : (List.range' (i - 1 + 1) fuel).find? (fun j => convergedB (resp j)) with
      | none => simp only [hf, Option.map_none', Option.getD_none]; omega
      | some j => simp only [hf, Option.map_some', Option.getD_some]

theorem tailRounds_expected (resp : Nat → List Payload) (m : Nat) :
    tailRounds resp m 1 = expectedRounds (m + 1) resp := by
  rw [tailRounds_eq_find resp m 1 le_rfl]
  unfold expectedRounds firstConvergedRound
  rw [List.range_eq_range', List.range'_1_concat, List.find?_append]
  simp only [Nat.zero_add]
  cases hfind : (List.range' 0 m).find? (fun j => convergedB (resp j)) with
  | some j => simp [hfind, Option.or]
  | none =>
    simp only [hfind, Option.or]
    cases hlast : [m].find? (fun j => convergedB (resp j)) with
    | some j =>
      have hm := List.mem_of_find?_eq_some hlast
      simp at hm
      subst hm
      simp only [hlast, Option.map_some', Option.getD_some, Option.map_none',
        Option.getD_none]
      omega
    | none =>
      simp only [hlast, Option.map_none', Option.getD_none]
      omega

/-- C2: with `max_rounds ≥ 1` and every convergence check succeeding,
the debate engine returns (without raising) exactly the rounds
`0 .. r - 1`, where `r = j + 1` when `j` is the first round whose responses
converge (so round-0 agreement yields exactly 1 round and no further
dispatch) and `r = max_rounds` when no round converges. -/
theorem debate_round_count (max_rounds : Nat) (resp : Nat → List Payload)
    (hmr : 1 ≤ max_rounds)
    (hok : ∀ i, i < max_rounds → exceptOkB (check_convergence (resp i)) = true) :
    debate max_rounds resp =
      .ok ((List.range (expectedRounds max_rounds resp)).map resp) := by
  obtain ⟨m, rfl⟩ : ∃ m, max_rounds = m + 1 := ⟨max_rounds - 1, by omega⟩
  unfold debate
  rw [debateGo, if_pos rfl]
  have h1 : ([] : List (List Payload)) ++ [resp 0] = (List.range 1).map resp := rfl
  rw [h1]
  rw [debateGo_spec resp m 1 le_rfl (fun j hj1 hj2 => hok j (by omega))]
  rw [tailRounds_expected]

/-- Witness for C2: three rounds of a two-agent ensemble answering `yes` and
`no` never converge, and the engine returns all three dispatched rounds. -/
theorem debate_round_count_witness :
    debate 3 (fun _ => [Payload.str "yes".toList, Payload.str "no".toList]) =
      .ok ((List.range
          (expectedRounds 3
            (fun _ => [Payload.str "yes".toList, Payload.str "no".toList]))).map
        (fun _ => [Payload.str "yes".toList, Payload.str "no".toList])) :=
  debate_round_count 3 (fun _ => [Payload.str "yes".toList, Payload.str "no".toList])
    (by decide) (by decide)

/-! Pruning selectors (C6, C7, C8) -/

theorem scanBody_mem {Q : Type} [LinearOrderedRing Q] (score : Nat → Q)
    (sel : List Int) (acc : Option Q × Int) (n : Nat) (hn : (Int.ofNat n) ∈ sel) :
    scanBody score sel acc n = acc := by
  unfold scanBody
  rw [if_pos hn]

theorem scanBody_none {Q : Type} [LinearOrderedRing Q] (score : Nat → Q)
    (sel : List Int) (n : Nat) (hn : (Int.ofNat n) ∉ sel) :
    scanBody score sel (none, -1) n = (some (score n), Int.ofNat n) := by
  unfold scanBody
  rw [if_neg hn]

theorem scanBody_better {Q : Type} [LinearOrderedRing Q] (score : Nat → Q)
    (sel : List Int) (m n : Nat) (hn : (Int.ofNat n) ∉ sel)
    (hlt : score m < score n) :
    scanBody score sel (some (score m), Int.ofNat m) n =
      (some (score n), Int.ofNat n) := by
  unfold scanBody
  rw [if_neg hn]
  show (if score m < score n then (some (score n), Int.ofNat n)
    else (some (score m), Int.ofNat m)) = (some (score n), Int.ofNat n)
  rw [if_pos hlt]

theorem scanBody_keep {Q : Type} [LinearOrderedRing Q] (score : Nat → Q)
    (sel : List Int) (m n : Nat) (hn : (Int.ofNat n) ∉ sel)
    (hlt : ¬ score m < score n) :
    scanBody score sel (some (score m), Int.ofNat m) n =
      (some (score m), Int.ofNat m) := by
  unfold scanBody
  rw [if_neg hn]
  show (if score m < score n then (some (score n), Int.ofNat n)
    else (some (score m), Int.ofNat m)) = (some (score m), Int.ofNat m)
  rw [if_neg hlt]

theorem scan_spec {Q : Type} [LinearOrderedRing Q] (score : Nat → Q)
    (sel : List Int) : ∀ n : Nat,
    ((∀ i, i < n → (Int.ofNat i) ∈ sel) →
      (List.range n).foldl (scanBody score sel) (none, -1) =
        ((none : Option Q), (-1 : Int))) ∧
    ((∃ i, i < n ∧ (Int.ofNat i) ∉ sel) →
      ∃ m, m < n ∧ (Int.ofNat m) ∉ sel ∧
        (List.range n).foldl (scanBody score sel) (none, -1) =
          (some (score m), Int.ofNat m) ∧
        (∀ j, j < n → (Int.ofNat j) ∉ sel → score j ≤ score m) ∧
        (∀ j, j < m → (Int.ofNat j) ∉ sel → score j < score m)) := by
  intro n
  induction n with
  | zero =>
    refine ⟨fun _ => rfl, ?_⟩
    rintro ⟨i, hi, -⟩
    exact absurd hi (by omega)
  | succ n ih =>
    rw [List.range_succ, List.foldl_append]
    by_cases hall : ∀ i, i < n → (Int.ofNat i) ∈ sel
    · rw [ih.1 hall]
      simp only [List.foldl_cons, List.foldl_nil]
      by_cases hn : (Int.ofNat n) ∈ sel
      · rw [scanBody_mem score sel _ n hn]
        refine ⟨fun _ => rfl, ?_⟩
        rintro ⟨i, hi, hmem⟩
        rcases Nat.lt_succ_iff_lt_or_eq.mp hi with hi' | hi'
        · exact absurd (hall i hi') hmem
        · exact absurd (hi' ▸ hn) hmem
      · rw [scanBody_none score sel n hn]
        refine ⟨fun hc => absurd (hc n (by omega)) hn, fun _ => ?_⟩
        refine ⟨n, by omega, hn, rfl, ?_, ?_⟩
        · intro j hj hjmem
          rcases Nat.lt_succ_iff_lt_or_eq.mp hj with hj' | hj'
          · exact absurd (hall j hj') hjmem
          · rw [hj']
        · intro j hj hjmem
          exact absurd (hall j hj) hjmem
    · push_neg at hall
      obtain ⟨m, hmn, hmmem, hfold, hmax, hfirst⟩ := ih.2 (by
        obtain ⟨i, hi, hmem⟩ := hall
        exact ⟨i, hi, hmem⟩)
      rw [hfold]
      simp only [List.foldl_cons, List.foldl_nil]
      refine ⟨fun hc => False.elim (hmmem (hc m (by omega))), fun _ => ?_⟩
      by_cases hn : (Int.ofNat n) ∈ sel
      · rw [scanBody_mem score sel _ n hn]
        refine ⟨m, by omega, hmmem, rfl, ?_, hfirst⟩
        intro j hj hjmem
        rcases Nat.lt_succ_iff_lt_or_eq.mp hj with hj' | hj'
        · exact hmax j hj' hjmem
        · exact absurd (hj' ▸ hn) hjmem
      · by_cases hlt : score m < score n
        · rw [scanBody_better score sel m n hn hlt]
          refine ⟨n, by omega, hn, rfl, ?_, ?_⟩
          · intro j hj hjmem
            rcases Nat.lt_succ_iff_lt_or_eq.mp hj with hj' | hj'
            · exact le_of_lt (lt_of_le_of_lt (hmax j hj' hjmem) hlt)
            · rw [hj']
          · intro j hj hjmem
            exact lt_of_le_of_lt (hmax j hj hjmem) hlt
        · rw [scanBody_keep score sel m n hn hlt]
          refine ⟨m, by omega, hmmem, rfl, ?_, hfirst⟩
          intro j hj hjmem
          rcases Nat.lt_succ_iff_lt_or_eq.mp hj with hj' | hj'
          · exact hmax j hj' hjmem
          · rw [hj']; exact le_of_not_lt hlt

theorem selectStep_found {Q : Type} [LinearOrderedRing Q] (score : Nat → Q)
    (sel : List Int) (n : Nat) (h : ∃ i, i < n ∧ (Int.ofNat i) ∉ sel) :
    ∃ m, m < n ∧ (Int.ofNat m) ∉ sel ∧ selectStep score sel n = Int.ofNat m ∧
      (∀ j, j < n → (Int.ofNat j) ∉ sel → score j ≤ score m) ∧
      (∀ j, j < m → (Int.ofNat j) ∉ sel → score j < score m) := by
  obtain ⟨m, hmn, hmmem, hfold, hmax, hfirst⟩ := (scan_spec score sel n).2 h
  exact ⟨m, hmn, hmmem, by rw [selectStep, hfold], hmax, hfirst⟩

theorem pyGet_ofNat {β : Type} [Inhabited β] (l : List β) (i : Nat) :
    pyGet l (Int.ofNat i) = l.getD i default := by
  unfold pyGet
  split
  · rfl
  · rename_i h
    rw [Int.ofNat_eq_natCast] at h
    omega

theorem mem_map_ofNat (σ : List Nat) (i : Nat) :
    (Int.ofNat i) ∈ σ.map Int.ofNat ↔ i ∈ σ := by
  constructor
  · intro h
    obtain ⟨j, hj, hji⟩ := List.mem_map.mp h
    have : j = i := Int.ofNat.inj hji
    exact this ▸ hj
  · intro h
    exact List.mem_map.mpr ⟨i, h, rfl⟩

theorem exists_unselected (σ : List Nat) (n : Nat) (hnd : σ.Nodup)
    (hlen : σ.length < n) : ∃ i, i < n ∧ i ∉ σ := by
  by_contra hc
  push_neg at hc
  have hsub : Finset.range n ⊆ σ.toFinset := by
    intro i hi
    exact List.mem_toFinset.mpr (hc i (Finset.mem_range.mp hi))
  have hcard : n ≤ σ.toFinset.card := by
    calc n = (Finset.range n).card := (Finset.card_range n).symm
    _ ≤ σ.toFinset.card := Finset.card_le_card hsub
  rw [List.toFinset_card_of_nodup hnd] at hcard
  omega

theorem getD_of_take_concat {β : Type} (τ σ : List β) (m d : β)
    (h : τ.take (σ.length + 1) = σ ++ [m]) : τ.getD σ.length d = m := by
  have hget : τ.get? σ.length = some m := by
    have h1 : (τ.take (σ.length + 1)).get? σ.length = some m := by
      rw [h]
      exact List.get?_concat_length σ m
    rw [List.get?_take (by omega)] at h1
    exact h1
  rw [List.getD_eq_get?, hget]
  rfl

/-- The invariant of the shared `while` loop: starting from a non-empty,
duplicate-free, in-range selection `σ` with enough fuel, the loop returns an
extension `τ` of `σ` that still has no duplicates, stays in range, has
exactly `max σ.length k` entries, and whose every appended entry is the
least-index maximizer of `score` over the unselected indices at that step. -/
theorem greedyLoop_spec {Q : Type} [LinearOrderedRing Q]
    (score : List Int → Nat → Q) (k n : Nat) :
    ∀ (fuel : Nat) (σ : List Nat), σ ≠ [] → σ.Nodup → (∀ i ∈ σ, i < n) →
      k ≤ σ.length + fuel → k ≤ n →
      ∃ τ : List Nat,
        greedyLoop score k n fuel (σ.map Int.ofNat) = τ.map Int.ofNat ∧
        τ.Nodup ∧ (∀ i ∈ τ, i < n) ∧ τ.length = max σ.length k ∧
        τ.take σ.length = σ ∧
        (∀ t, σ.length ≤ t → t < τ.length →
          (τ.getD t 0) < n ∧ (τ.getD t 0) ∉ τ.take t ∧
          (∀ j, j < n → j ∉ τ.take t →
            score ((τ.take t).map Int.ofNat) j ≤
              score ((τ.take t).map Int.ofNat) (τ.getD t 0)) ∧
          (∀ j, j < τ.getD t 0 → j ∉ τ.take t →
            score ((τ.take t).map Int.ofNat) j <
              score ((τ.take t).map Int.ofNat) (τ.getD t 0))) := by
  intro fuel
  induction fuel with
  | zero =>
    intro σ hne hnd hbound hfuel hkn
    refine ⟨σ, rfl, hnd, hbound, by omega, List.take_length σ, ?_⟩
    intro t ht1 ht2
    omega
  | succ fuel ih =>
    intro σ hne hnd hbound hfuel hkn
    by_cases hlen : σ.length < k
    · have hlenn : σ.length < n := by omega
      obtain ⟨c, hcn, hcmem⟩ := exists_unselected σ n hnd hlenn
      have hcand : ∃ i, i < n ∧ (Int.ofNat i) ∉ σ.map Int.ofNat :=
        ⟨c, hcn, fun hc => hcmem ((mem_map_ofNat σ c).mp hc)⟩
      obtain ⟨m, hmn, hmmem, hsel, hmax, hfirst⟩ :=
        selectStep_found (score (σ.map Int.ofNat)) (σ.map Int.ofNat) n hcand
      have hmns : m ∉ σ := fun hc => hmmem ((mem_map_ofNat σ m).mpr hc)
      rw [greedyLoop, if_pos (by rw [List.length_map]; exact hlen), hsel]
      have hmap : σ.map Int.ofNat ++ [Int.ofNat m] = (σ ++ [m]).map Int.ofNat := by
        rw [List.map_append]
        rfl
      rw [hmap]
      have hnd' : (σ ++ [m]).Nodup := by
        rw [List.nodup_append]
        exact ⟨hnd, List.nodup_singleton m, by simpa using hmns⟩
      obtain ⟨τ, hloop, hτnd, hτbound, hτlen, hτtake, hτstep⟩ :=
        ih (σ ++ [m]) (by simp) hnd'
          (by intro i hi
              rcases List.mem_append.mp hi with h | h
              · exact hbound i h
              · simpa using (by simpa using h : i = m) ▸ hmn)
          (by rw [List.length_append]; simp; omega) hkn
      have hτtakeσ : τ.take σ.length = σ := by
        have h1 : τ.take (σ.length + 1) = σ ++ [m] := by
          rw [← hτtake]
          congr 1
          rw [List.length_append]
          rfl
        calc τ.take σ.length = (τ.take (σ.length + 1)).take σ.length := by
              rw [List.take_take]
              congr 1
              omega
        _ = (σ ++ [m]).take σ.length := by rw [h1]
        _ = σ := by rw [List.take_append_of_le_length (by omega)]
                    exact List.take_length σ
      refine ⟨τ, hloop, hτnd, hτbound, ?_, hτtakeσ, ?_⟩
      · rw [hτlen, List.length_append]
        simp
        omega
      · intro t ht1 ht2
        rcases Nat.lt_or_ge t (σ.length + 1) with htc | htc
        · have hteq : t = σ.length := by omega
          subst hteq
          have h1 : τ.take (σ.length + 1) = σ ++ [m] := by
            rw [← hτtake]
            congr 1
            rw [List.length_append]
            rfl
          have hgd : τ.getD σ.length 0 = m := getD_of_take_concat τ σ m 0 h1
          rw [hτtakeσ, hgd]
          refine ⟨hmn, hmns, ?_, ?_⟩
          · intro j hj hjmem
            exact hmax j hj (fun hc => hjmem ((mem_map_ofNat σ j).mp hc))
          · intro j hj hjmem
            exact hfirst j hj (fun hc => hjmem ((mem_map_ofNat σ j).mp hc))
        · have := hτstep t (by rw [List.length_append]; simpa using htc) ht2
          exact this
    · rw [greedyLoop, if_neg (by rw [List.length_map]; exact hlen)]
      refine ⟨σ, rfl, hnd, hbound, by omega, List.take_length σ, ?_⟩
      intro t ht1 ht2
      omega

theorem getD_mem_of_lt {β : Type} [Inhabited β] (l : List β) (i : Nat)
    (h : i < l.length) : l.getD i default ∈ l := by
  rw [List.getD_eq_get?]
  cases hg : l.get? i with
  | none =>
    rw [List.get?_eq_none] at hg
    omega
  | some a => simpa using List.get?_mem hg

theorem getD_range_map_self {β : Type} [Inhabited β] (l : List β) :
    (List.range l.length).map (fun i => l.getD i default) = l := by
  induction l with
  | nil => rfl
  | cons x xs ih =>
    rw [List.length_cons, List.range_succ_eq_map, List.map_cons, List.map_map]
    congr 1

theorem head?_of_take_one {β : Type} (τ : List β) (a : β)
    (h : τ.take 1 = [a]) : τ.head? = some a := by
  cases τ with
  | nil => cases h
  | cons b rest =>
    simp only [List.take_succ_cons, List.take_zero] at h
    injection h with h1
    rw [h1]
    rfl

theorem pyMaxBy_concat {Q : Type} [LinearOrderedRing Q] (key : Nat → Q)
    (x n : Nat) (xs : List Nat) :
    pyMaxBy key ((x :: xs) ++ [n]) =
      (if key (pyMaxBy key (x :: xs)) < key n then n else pyMaxBy key (x :: xs)) := by
  simp only [pyMaxBy, List.cons_append, List.foldl_append, List.foldl_cons,
    List.foldl_nil]

theorem pyMaxBy_range_spec {Q : Type} [LinearOrderedRing Q] (key : Nat → Q) :
    ∀ n : Nat, 1 ≤ n →
      pyMaxBy key (List.range n) < n ∧
      (∀ j, j < n → key j ≤ key (pyMaxBy key (List.range n))) ∧
      (∀ j, j < pyMaxBy key (List.range n) →
        key j < key (pyMaxBy key (List.range n))) := by
  intro n
  induction n with
  | zero => intro h; omega
  | succ n ih =>
    intro _
    by_cases hn : 1 ≤ n
    · obtain ⟨hM, hMmax, hMfirst⟩ := ih hn
      cases hr : List.range n with
      | nil => rw [List.range_eq_nil] at hr; omega
      | cons x xs =>
        have hconcat : pyMaxBy key (List.range (n + 1)) =
            (if key (pyMaxBy key (List.range n)) < key n then n
              else pyMaxBy key (List.range n)) := by
          rw [List.range_succ, hr]
          exact pyMaxBy_concat key x n xs
        by_cases hlt : key (pyMaxBy key (List.range n)) < key n
        · rw [hconcat, if_pos hlt]
          refine ⟨by omega, ?_, ?_⟩
          · intro j hj
            rcases Nat.lt_succ_iff_lt_or_eq.mp hj with hj' | hj'
            · exact le_of_lt (lt_of_le_of_lt (hMmax j hj') hlt)
            · rw [hj']
          · intro j hj
            exact lt_of_le_of_lt (hMmax j hj) hlt
        · rw [hconcat, if_neg hlt]
          refine ⟨by omega, ?_, hMfirst⟩
          intro j hj
          rcases Nat.lt_succ_iff_lt_or_eq.mp hj with hj' | hj'
          · exact hMmax j hj'
          · rw [hj']
            exact le_of_not_lt hlt
    · have hn0 : n = 0 := by omega
      subst hn0
      have h0 : pyMaxBy key (List.range (0 + 1)) = 0 := rfl
      refine ⟨by rw [h0]; omega, fun j hj => ?_, fun j hj => ?_⟩
      · have hj0 : j = 0 := by omega
        subst hj0
        rw [h0]
      · rw [h0] at hj
        omega

theorem pyGet_natCast {β : Type} [Inhabited β] (l : List β) (i : Nat) :
    pyGet l (i : Int) = l.getD i default :=
  pyGet_ofNat l i

theorem sumKL_map_ofNat {E Q : Type} [Inhabited E] [LinearOrderedRing Q]
    (dist : E → E → Q) (emb : List E) (σ : List Nat) (i : Nat) :
    sumKL dist emb (σ.map Int.ofNat) i = divAggregate dist emb σ i := by
  unfold sumKL divAggregate
  rw [pyGet_ofNat emb i, List.map_map]
  have hfun : ((fun j => dist (emb.getD i default) (pyGet emb j)) ∘ Int.ofNat) =
      (fun j : Nat => dist (emb.getD i default) (emb.getD j default)) := by
    funext j
    simp [Function.comp, pyGet_ofNat, pyGet_natCast]
  rw [hfun]

theorem diversity_core {α E Q : Type} [Inhabited α] [Inhabited E]
    [LinearOrderedRing Q] (dist : E → E → Q) (embed : α → E)
    (responses : List α) (k : Nat) (hk : 1 ≤ k) (hkn : k < responses.length) :
    ∃ τ : List Nat,
      diversity_pruning dist embed responses k =
        τ.map (fun i => responses.getD i default) ∧
      τ.Nodup ∧ (∀ i ∈ τ, i < responses.length) ∧ τ.length = k ∧
      τ.take 1 = [0] ∧
      (∀ t, 1 ≤ t → t < τ.length →
        τ.getD t 0 < responses.length ∧ τ.getD t 0 ∉ τ.take t ∧
        (∀ j, j < responses.length → j ∉ τ.take t →
          divAggregate dist (responses.map embed) (τ.take t) j ≤
            divAggregate dist (responses.map embed) (τ.take t) (τ.getD t 0)) ∧
        (∀ j, j < τ.getD t 0 → j ∉ τ.take t →
          divAggregate dist (responses.map embed) (τ.take t) j <
            divAggregate dist (responses.map embed) (τ.take t) (τ.getD t 0))) := by
  have hn1 : ¬ responses.length ≤ k := by omega
  obtain ⟨τ, hloop, hnd, hbound, hlen, htake, hstep⟩ :=
    greedyLoop_spec (fun s i => sumKL dist (responses.map embed) s i) k
      responses.length k [0] (by simp) (List.nodup_singleton 0)
      (by intro i hi
          simp at hi
          omega)
      (by simp only [List.length_singleton]; omega) (le_of_lt hkn)
  have h00 : (([0] : List Nat)).map Int.ofNat = [Int.ofNat 0] := rfl
  rw [h00] at hloop
  have hlen' : τ.length = k := by
    rw [hlen]
    simp only [List.length_singleton]
    omega
  refine ⟨τ, ?_, hnd, hbound, hlen', by simpa using htake, ?_⟩
  · calc diversity_pruning dist embed responses k
        = (greedyLoop (fun s i => sumKL dist (responses.map embed) s i) k
            (responses.map embed).length k [Int.ofNat 0]).map
            (fun i => pyGet responses i) := by
          unfold diversity_pruning
          rw [if_neg hn1]
      _ = (τ.map Int.ofNat).map (fun i => pyGet responses i) := by
          rw [List.length_map, hloop]
      _ = τ.map (fun i => responses.getD i default) := by
          rw [List.map_map]
          congr 1
  · intro t ht1 ht2
    obtain ⟨h1, h2, h3, h4⟩ := hstep t (by simpa using ht1) ht2
    refine ⟨h1, h2, ?_, ?_⟩
    · intro j hj hjmem
      have := h3 j hj hjmem
      rwa [sumKL_map_ofNat, sumKL_map_ofNat] at this
    · intro j hj hjmem
      have := h4 j hj hjmem
      rwa [sumKL_map_ofNat, sumKL_map_ofNat] at this

theorem quality_core {α E Q : Type} [Inhabited α] [Inhabited E]
    [LinearOrderedRing Q] (dist : E → E → Q) (embed : α → E)
    (responses : List α) (task : α) (k : Nat) (hk : 1 ≤ k)
    (hkn : k < responses.length) :
    ∃ (i0 : Nat) (τ : List Nat),
      quality_pruning dist embed responses task k =
        τ.map (fun i => responses.getD i default) ∧
      τ.Nodup ∧ (∀ i ∈ τ, i < responses.length) ∧ τ.length = k ∧
      τ.take 1 = [i0] ∧ i0 < responses.length ∧
      (∀ j, j < responses.length →
        dist (embed task) ((responses.map embed).getD i0 default) ≤
          dist (embed task) ((responses.map embed).getD j default)) ∧
      (∀ j, j < i0 →
        dist (embed task) ((responses.map embed).getD i0 default) <
          dist (embed task) ((responses.map embed).getD j default)) := by
  have hn1 : ¬ responses.length ≤ k := by omega
  have hnpos : 1 ≤ responses.length := by omega
  set key : Nat → Q :=
    fun i => 1 - dist (embed task) (pyGet (responses.map embed) (Int.ofNat i))
    with hkey
  set i0 : Nat := pyMaxBy key (List.range responses.length) with hi0
  obtain ⟨hi0lt, hi0max, hi0first⟩ := pyMaxBy_range_spec key responses.length hnpos
  obtain ⟨τ, hloop, hnd, hbound, hlen, htake, _⟩ :=
    greedyLoop_spec
      (fun s i => sumKL dist (responses.map embed) s i +
        (1 - dist (embed task) (pyGet (responses.map embed) (Int.ofNat i))))
      k responses.length k [i0] (by simp) (List.nodup_singleton i0)
      (by intro i hi
          simp at hi
          omega)
      (by simp only [List.length_singleton]; omega) (le_of_lt hkn)
  have h00 : (([i0] : List Nat)).map Int.ofNat = [Int.ofNat i0] := rfl
  rw [h00] at hloop
  have hlen' : τ.length = k := by
    rw [hlen]
    simp only [List.length_singleton]
    omega
  have hkeyval : ∀ j : Nat, key j =
      1 - dist (embed task) ((responses.map embed).getD j default) := by
    intro j
    simp only [hkey]
    rw [pyGet_ofNat]
  refine ⟨i0, τ, ?_, hnd, hbound, hlen', by simpa using htake, hi0lt, ?_, ?_⟩
  · calc quality_pruning dist embed responses task k
        = (greedyLoop
            (fun s i => sumKL dist (responses.map embed) s i +
              (1 - dist (embed task) (pyGet (responses.map embed) (Int.ofNat i))))
            k responses.length k
            [Int.ofNat (pyMaxBy
              (fun i => 1 - dist (embed task)
                (pyGet (responses.map embed) (Int.ofNat i)))
              (List.range responses.length))]).map (fun i => pyGet responses i) := by
          unfold quality_pruning
          rw [if_neg hn1]
      _ = (τ.map Int.ofNat).map (fun i => pyGet responses i) := by
          rw [← hkey, ← hi0, hloop]
      _ = τ.map (fun i => responses.getD i default) := by
          rw [List.map_map]
          congr 1
  · intro j hj
    have := hi0max j hj
    rw [hkeyval j, hkeyval i0] at this
    exact (sub_le_sub_iff_left _).mp this
  · intro j hj
    have := hi0first j hj
    rw [hkeyval j, hkeyval i0] at this
    exact (sub_lt_sub_iff_left _).mp this

/-- C6 (amended to `1 ≤ k`): for `1 ≤ k ≤ n` both pruning functions return
exactly `k` responses, selected at distinct in-range input indices (hence all
drawn from the input list); for `k ≥ n` they return all `n` input responses
unchanged; and every returned response is an element of the input list. -/
theorem pruning_size_bound {α E Q : Type} [Inhabited α] [Inhabited E]
    [LinearOrderedRing Q] (dist : E → E → Q) (embed : α → E)
    (responses : List α) (task : α) (k : Nat) (hk : 1 ≤ k) :
    (k ≤ responses.length →
      (∃ σ : List Nat, diversity_pruning dist embed responses k =
          σ.map (fun i => responses.getD i default) ∧
        σ.Nodup ∧ (∀ i ∈ σ, i < responses.length) ∧ σ.length = k) ∧
      (∃ σ : List Nat, quality_pruning dist embed responses task k =
          σ.map (fun i => responses.getD i default) ∧
        σ.Nodup ∧ (∀ i ∈ σ, i < responses.length) ∧ σ.length = k)) ∧
    (responses.length ≤ k →
      diversity_pruning dist embed responses k = responses ∧
      quality_pruning dist embed responses task k = responses) ∧
    (∀ x ∈ diversity_pruning dist embed responses k, x ∈ responses) ∧
    (∀ x ∈ quality_pruning dist embed responses task k, x ∈ responses) := by
  have heqd : responses.length ≤ k →
      diversity_pruning dist embed responses k = responses := by
    intro h
    unfold diversity_pruning
    rw [if_pos h]
  have heqq : responses.length ≤ k →
      quality_pruning dist embed responses task k = responses := by
    intro h
    unfold quality_pruning
    rw [if_pos h]
  have hfull : responses.length ≤ k → ∃ σ : List Nat,
      responses = σ.map (fun i => responses.getD i default) ∧
      σ.Nodup ∧ (∀ i ∈ σ, i < responses.length) ∧ σ.length = responses.length :=
    fun _ => ⟨List.range responses.length, (getD_range_map_self responses).symm,
      List.nodup_range responses.length, fun i hi => List.mem_range.mp hi,
      List.length_range responses.length⟩
  refine ⟨?_, fun h => ⟨heqd h, heqq h⟩, ?_, ?_⟩
  · intro hkn
    by_cases hlt : k < responses.length
    · obtain ⟨τ, heq, hnd, hbound, hlen, -, -⟩ :=
        diversity_core dist embed responses k hk hlt
      obtain ⟨i0, τ', heq', hnd', hbound', hlen', -, -, -, -⟩ :=
        quality_core dist embed responses task k hk hlt
      exact ⟨⟨τ, heq, hnd, hbound, hlen⟩, ⟨τ', heq', hnd', hbound', hlen'⟩⟩
    · have hke : responses.length ≤ k := by omega
      have hkl : k = responses.length := by omega
      obtain ⟨σ, h1, h2, h3, h4⟩ := hfull hke
      exact ⟨⟨σ, by rw [heqd hke]; exact h1, h2, h3, by omega⟩,
        ⟨σ, by rw [heqq hke]; exact h1, h2, h3, by omega⟩⟩
  · intro x hx
    by_cases hle : responses.length ≤ k
    · rwa [heqd hle] at hx
    · obtain ⟨τ, heq, -, hbound, -, -, -⟩ :=
        diversity_core dist embed responses k hk (by omega)
      rw [heq] at hx
      obtain ⟨i, hi, rfl⟩ := List.mem_map.mp hx
      exact getD_mem_of_lt responses i (hbound i hi)
  · intro x hx
    by_cases hle : responses.length ≤ k
    · rwa [heqq hle] at hx
    · obtain ⟨i0, τ, heq, -, hbound, -, -, -, -, -⟩ :=
        quality_core dist embed responses task k hk (by omega)
      rw [heq] at hx
      obtain ⟨i, hi, rfl⟩ := List.mem_map.mp hx
      exact getD_mem_of_lt responses i (hbound i hi)

/-- Witness for the amended C6 claim: pruning three responses down to two
returns two of them (evaluated concretely), and the subset conjunct follows
from the theorem at that input. -/
theorem pruning_size_bound_witness :
    diversity_pruning sampleDist sampleEmbed ["a", "b", "c"] 2 = ["a", "c"] ∧
    quality_pruning sampleDist sampleEmbed ["a", "b", "c"] "c" 2 = ["c", "a"] ∧
    (∀ x ∈ diversity_pruning sampleDist sampleEmbed ["a", "b", "c"] 2,
      x ∈ (["a", "b", "c"] : List String)) :=
  ⟨by decide, by decide,
    (pruning_size_bound sampleDist sampleEmbed ["a", "b", "c"] "c" 2
      (by decide)).2.2.1⟩

/-- Counterexample to C6 as stated: at `k = 0 ≤ n = 2` both pruning functions
return one response (the seed) instead of exactly `k = 0` responses — the
guard of the `while` loop is checked only after the seed is unconditionally
selected. -/
theorem pruning_size_bound_counterexample :
    ((0 : Nat) ≤ (["a", "b"] : List String).length) ∧
    diversity_pruning sampleDist sampleEmbed ["a", "b"] 0 = ["a"] ∧
    quality_pruning sampleDist sampleEmbed ["a", "b"] "t" 0 = ["a"] ∧
    (diversity_pruning sampleDist sampleEmbed ["a", "b"] 0).length ≠ 0 :=
  ⟨by decide, by decide, by decide, by decide⟩

/-- C7: for `1 ≤ k < n`, diversity pruning selects index 0 first and then, at
each greedy step, the unselected candidate maximizing the SUM of pairwise
distances to all currently selected embeddings, ties broken by the lowest
index; the responses come back in selection order, the response of index 0
first. -/
theorem diversity_pruning_greedy {α E Q : Type} [Inhabited α] [Inhabited E]
    [LinearOrderedRing Q] (dist : E → E → Q) (embed : α → E)
    (responses : List α) (k : Nat) (hk : 1 ≤ k) (hkn : k < responses.length) :
    ∃ σ : List Nat,
      diversity_pruning dist embed responses k =
        σ.map (fun i => responses.getD i default) ∧
      σ.length = k ∧ σ.head? = some 0 ∧
      (∀ t, 1 ≤ t → t < k →
        σ.getD t 0 < responses.length ∧ σ.getD t 0 ∉ σ.take t ∧
        (∀ j, j < responses.length → j ∉ σ.take t →
          divAggregate dist (responses.map embed) (σ.take t) j ≤
            divAggregate dist (responses.map embed) (σ.take t) (σ.getD t 0)) ∧
        (∀ j, j < σ.getD t 0 → j ∉ σ.take t →
          divAggregate dist (responses.map embed) (σ.take t) j <
            divAggregate dist (responses.map embed) (σ.take t) (σ.getD t 0))) := by
  obtain ⟨τ, heq, hnd, hbound, hlen, htake1, hstep⟩ :=
    diversity_core dist embed responses k hk hkn
  exact ⟨τ, heq, hlen, head?_of_take_one τ 0 htake1,
    fun t ht1 ht2 => hstep t ht1 (by omega)⟩

/-- Witness for C7: with three responses embedded at `0, 1, 2` and squared
difference as distance, pruning to `k = 2` keeps index 0 and then index 2
(the farthest-in-sum candidate): concretely `["a", "c"]`. -/
theorem diversity_pruning_greedy_witness :
    ((1 : Nat) ≤ 2 ∧ 2 < (["a", "b", "c"] : List String).length) ∧
    ∃ σ : List Nat,
      diversity_pruning sampleDist sampleEmbed ["a", "b", "c"] 2 =
        σ.map (fun i => (["a", "b", "c"] : List String).getD i default) ∧
      σ.length = 2 ∧ σ.head? = some 0 ∧
      (∀ t, 1 ≤ t → t < 2 →
        σ.getD t 0 < (["a", "b", "c"] : List String).length ∧
        σ.getD t 0 ∉ σ.take t ∧
        (∀ j, j < (["a", "b", "c"] : List String).length → j ∉ σ.take t →
          divAggregate sampleDist ((["a", "b", "c"] : List String).map sampleEmbed)
              (σ.take t) j ≤
            divAggregate sampleDist ((["a", "b", "c"] : List String).map sampleEmbed)
              (σ.take t) (σ.getD t 0)) ∧
        (∀ j, j < σ.getD t 0 → j ∉ σ.take t →
          divAggregate sampleDist ((["a", "b", "c"] : List String).map sampleEmbed)
              (σ.take t) j <
            divAggregate sampleDist ((["a", "b", "c"] : List String).map sampleEmbed)
              (σ.take t) (σ.getD t 0))) :=
  ⟨⟨by decide, by decide⟩,
    diversity_pruning_greedy sampleDist sampleEmbed ["a", "b", "c"] 2
      (by decide) (by decide)⟩

/-- C8: for `1 ≤ k < n`, the first response selected by quality pruning is
the one whose distance to the task embedding is smallest, ties broken by the
lowest input index. -/
theorem quality_pruning_seed {α E Q : Type} [Inhabited α] [Inhabited E]
    [LinearOrderedRing Q] (dist : E → E → Q) (embed : α → E)
    (responses : List α) (task : α) (k : Nat) (hk : 1 ≤ k)
    (hkn : k < responses.length) :
    ∃ i0, i0 < responses.length ∧
      (quality_pruning dist embed responses task k).head? =
        some (responses.getD i0 default) ∧
      (∀ j, j < responses.length →
        dist (embed task) ((responses.map embed).getD i0 default) ≤
          dist (embed task) ((responses.map embed).getD j default)) ∧
      (∀ j, j < i0 →
        dist (embed task) ((responses.map embed).getD i0 default) <
          dist (embed task) ((responses.map embed).getD j default)) := by
  obtain ⟨i0, τ, heq, -, -, -, htake1, hi0lt, hmax, hfirst⟩ :=
    quality_core dist embed responses task k hk hkn
  refine ⟨i0, hi0lt, ?_, hmax, hfirst⟩
  rw [heq, List.head?_map, head?_of_take_one τ i0 htake1]
  rfl

/-- Witness for C8: with responses embedded at `0, 1, 2` and the task
embedded at `2`, the seed is the task-nearest response `"c"`. -/
theorem quality_pruning_seed_witness :
    ((1 : Nat) ≤ 2 ∧ 2 < (["a", "b", "c"] : List String).length) ∧
    (quality_pruning sampleDist sampleEmbed ["a", "b", "c"] "c" 2).head? =
      some "c" ∧
    (∃ i0, i0 < (["a", "b", "c"] : List String).length ∧
      (quality_pruning sampleDist sampleEmbed ["a", "b", "c"] "c" 2).head? =
        some ((["a", "b", "c"] : List String).getD i0 default) ∧
      (∀ j, j < (["a", "b", "c"] : List String).length →
        sampleDist (sampleEmbed "c")
            (((["a", "b", "c"] : List String).map sampleEmbed).getD i0 default) ≤
          sampleDist (sampleEmbed "c")
            (((["a", "b", "c"] : List String).map sampleEmbed).getD j default)) ∧
      (∀ j, j < i0 →
        sampleDist (sampleEmbed "c")
            (((["a", "b", "c"] : List String).map sampleEmbed).getD i0 default) <
          sampleDist (sampleEmbed "c")
            (((["a", "b", "c"] : List String).map sampleEmbed).getD j default))) :=
  ⟨⟨by decide, by decide⟩, by decide,
    quality_pruning_seed sampleDist sampleEmbed ["a", "b", "c"] "c" 2
      (by decide) (by decide)⟩

end MLDebate
